import Mathlib

/-!
Verification of the ecdf core of tcrdist3 (tcrdist/ecdf.py).

The distance_ecdf routine and the make_ecdf_step step-function builder are
embedded shallowly: numpy arrays become lists of rationals, a sparse
(csr) row becomes the list of its stored (column index, value) pairs, and
the row loop of distance_ecdf becomes a map over the enumerated rows.
Floating point numbers are modelled exactly by rationals, so the
"within floating point tolerance" clauses of the specification become exact
equalities. Fallible array operations (indexing an empty array) are
modelled with Option, and the numpy broadcasting failure that a mismatched
weight vector triggers is modelled with Except.
-/

namespace Ecdf

/-- Dense branch numerator of one row of distance_ecdf at one threshold t:
models numer = np.sum((row <= thresholds[None, :]) * weights[:, None], axis=0)
restricted to a single threshold, i.e. the sum of weights[j] over columns j
with row[j] <= t. -/
def numer_dense (row weights : List ℚ) (t : ℚ) : ℚ :=
  ((row.zip weights).map fun p => if p.1 ≤ t then p.2 else 0).sum

/-- Sparse branch numerator of one row of distance_ecdf at one threshold t,
the row given as the list of its stored (column index, value) pairs: models
numer = np.sum((row.data[:, None] <= thresholds[None, :]) * weights[row.indices, None], axis=0)
restricted to a single threshold. Only stored entries are iterated; a stored
index out of range of the weight vector defaults to weight 0 here. -/
def numer_sparse (stored : List (ℕ × ℚ)) (weights : List ℚ) (t : ℚ) : ℚ :=
  (stored.map fun p => if p.2 ≤ t then weights.getD p.1 0 else 0).sum

/-- Body of the row loop of distance_ecdf at one threshold for a dense row:
the skip_diag adjustment subtracts weights[i] from numerator and denominator,
then the pseudo count is added to both and the quotient is taken. -/
def ecdf_val_dense (row weights : List ℚ) (pc : ℚ) (skip : Bool) (i : ℕ) (t : ℚ) : ℚ :=
  let numer := numer_dense row weights t
  let numer2 := if skip then numer - weights.getD i 0 else numer
  let denom := if skip then weights.sum - weights.getD i 0 else weights.sum
  (numer2 + pc) / (denom + pc)

/-- Body of the row loop of distance_ecdf at one threshold for a sparse row. -/
def ecdf_val_sparse (stored : List (ℕ × ℚ)) (weights : List ℚ) (pc : ℚ) (skip : Bool) (i : ℕ) (t : ℚ) : ℚ :=
  let numer := numer_sparse stored weights t
  let numer2 := if skip then numer - weights.getD i 0 else numer
  let denom := if skip then weights.sum - weights.getD i 0 else weights.sum
  (numer2 + pc) / (denom + pc)

/-- The dense branch of distance_ecdf with explicit thresholds and weights:
ecdf[i, :] = (numer + pseudo_count) / (denom + pseudo_count) computed row by
row over the enumerated rows of pwrect. -/
def distance_ecdf_dense (pw : List (List ℚ)) (thresholds weights : List ℚ)
    (pc : ℚ) (skip : Bool) : List (List ℚ) :=
  pw.enum.map fun p => thresholds.map (ecdf_val_dense p.2 weights pc skip p.1)

/-- The sparse branch of distance_ecdf with explicit thresholds and weights:
each row is given by its stored (column index, value) pairs. -/
def distance_ecdf_sparse (rows : List (List (ℕ × ℚ))) (thresholds weights : List ℚ)
    (pc : ℚ) (skip : Bool) : List (List ℚ) :=
  rows.enum.map fun p => thresholds.map (ecdf_val_sparse p.2 weights pc skip p.1)

/-- Sparse encoding of one dense row starting at column k: the list of
(column index, value) pairs of the nonzero entries, in column order. This is
the zero-convention of the csr encoding: zero entries are not stored. -/
def sparsifyFrom : ℕ → List ℚ → List (ℕ × ℚ)
  | _, [] => []
  | k, x :: xs => if x = 0 then sparsifyFrom (k + 1) xs else (k, x) :: sparsifyFrom (k + 1) xs

/-- Sparse encoding of a dense matrix, row by row. -/
def sparsify (pw : List (List ℚ)) : List (List (ℕ × ℚ)) :=
  pw.map (sparsifyFrom 0)

/-- Weighted count of the nonzero entries of a dense row that are at most t:
the quantity the sparse branch numerator actually computes on the sparse
encoding of the row. -/
def nz_numer (row weights : List ℚ) (t : ℚ) : ℚ :=
  ((row.zip weights).map fun p => if p.1 ≠ 0 ∧ p.1 ≤ t then p.2 else 0).sum

/-- Total weight sitting on the zero entries of a dense row: the weight that
the sparse encoding leaves out of every numerator. -/
def zero_weight_sum (row weights : List ℚ) : ℚ :=
  ((row.zip weights).map fun p => if p.1 = 0 then p.2 else 0).sum

/-- Modelled from the words of the claim on self-exclusion: the sum of
weights[j] over reference columns j distinct from i whose distance to the
target is at most t, over the first n columns. -/
def excl_numer (row weights : List ℚ) (i : ℕ) (t : ℚ) (n : ℕ) : ℚ :=
  ∑ j in Finset.range n, if j ≠ i ∧ row.getD j 0 ≤ t then weights.getD j 0 else 0

/-- Modelled from the words of the claim on self-exclusion: the sum of
weights[j] over reference columns j distinct from i, over the first n
columns. -/
def excl_denom (weights : List ℚ) (i : ℕ) (n : ℕ) : ℚ :=
  ∑ j in Finset.range n, if j ≠ i then weights.getD j 0 else 0

end Ecdf

namespace Ecdf

/-- Element-wise floor used by the enforce_mn branch of make_ecdf_step:
models the masked assignment v[v < m] = m. -/
def clamp_low (l : List ℚ) (m : ℚ) : List ℚ :=
  l.map fun x => if x < m then m else x

/-- Each element repeated twice, in order: models np.repeat(v, 2). -/
def double_each : List ℚ → List ℚ
  | [] => []
  | x :: xs => x :: x :: double_each xs

/-- The add_mnx branch of make_ecdf_step: t = np.concatenate(([mn[0]], t)) and
y = np.concatenate(([y[0]], y)). Indexing y[0] fails on an empty array. -/
def add_x (t y : List ℚ) (mn1 : ℚ) : Option (List ℚ × List ℚ) :=
  match y with
  | [] => none
  | h :: ys => some (mn1 :: t, h :: h :: ys)

/-- The add_mny branch of make_ecdf_step: t = np.concatenate(([t[0]], t)) and
y = np.concatenate(([mn[1]], y)). Indexing t[0] fails on an empty array. -/
def add_y (t y : List ℚ) (mn2 : ℚ) : Option (List ℚ × List ℚ) :=
  match t with
  | [] => none
  | h :: ts => some (h :: h :: ts, mn2 :: y)

/-- The three prepending branches of make_ecdf_step, applied in source
order: add_mnx, then add_mny, then add_mnmn. -/
def step_prepend (t y : List ℚ) (add_mnx add_mny add_mnmn : Bool) (mn : ℚ × ℚ) :
    Option (List ℚ × List ℚ) := do
  let p1 ← if add_mnx then add_x t y mn.1 else some (t, y)
  let p2 ← if add_mny then add_y p1.1 p1.2 mn.2 else some p1
  some (if add_mnmn then (mn.1 :: p2.1, mn.2 :: p2.2) else p2)

/-- The doubling stage of make_ecdf_step:
t = np.concatenate(([t[0]], np.repeat(t[1:], 2))) and
y = np.repeat(y, 2)[:-1]. Indexing t[0] fails on an empty array. -/
def step_double (t y : List ℚ) : Option (List ℚ × List ℚ) :=
  match t with
  | [] => none
  | t0 :: ts => some (t0 :: double_each ts, (double_each y).dropLast)

/-- The jitter stage of make_ecdf_step with the single uniform draw r
injected: jx = t + (r - 0.5) * xjitter, then jx[0] = t[0] and
jx[-1] = t[-1] restore the two endpoints. -/
def jitter_fix (t : List ℚ) (xjitter r : ℚ) : List ℚ :=
  ((t.map fun x => x + (r - 1/2) * xjitter).set 0 (t.headD 0)).set
    (t.length - 1) (t.getLastD 0)

/-- The make_ecdf_step routine with the random draw r injected. The stages
in source order: optional enforce_mn clamping, the three optional
prepends, the doubling into a step sequence, and the jitter with restored
endpoints. Returns none exactly where the source would raise an index
error on an empty array. -/
def make_ecdf_step (thresholds ecdf : List ℚ)
    (add_mnx add_mny add_mnmn enforce_mn : Bool) (mn : ℚ × ℚ)
    (xjitter r : ℚ) : Option (List ℚ × List ℚ) := do
  let t := if enforce_mn then clamp_low thresholds mn.1 else thresholds
  let y := if enforce_mn then clamp_low ecdf mn.2 else ecdf
  let p ← step_prepend t y add_mnx add_mny add_mnmn mn
  let q ← step_double p.1 p.2
  some (jitter_fix q.1 xjitter r, q.2)

/-- Contents of the two arrays the caller passed to make_ecdf_step, after
the call returns. The source applies np.asarray to both inputs, which for
an ndarray input returns the very same array without copying, and the
enforce_mn branch then writes through the masked assignments
t[t < mn[0]] = mn[0] and y[y < mn[1]] = mn[1] into the callers arrays. -/
def step_inputs_after (thresholds ecdf : List ℚ) (enforce_mn : Bool)
    (mn : ℚ × ℚ) : List ℚ × List ℚ :=
  (if enforce_mn then clamp_low thresholds mn.1 else thresholds,
   if enforce_mn then clamp_low ecdf mn.2 else ecdf)

/-- Dense branch of distance_ecdf together with the numpy shape discipline
that actually governs it. There is no explicit length check on weights in
the source: the product (row <= thresholds) * weights[:, None] raises a
broadcast error only when the weight length W, the column count C and 1 are
pairwise incompatible (W distinct from C, W distinct from 1, C distinct
from 1), and only if at least one row is processed; the lookup weights[i]
under skip_diag raises an index error only when some processed row index
reaches past W. When W = 1 or C = 1, numpy broadcasting silently stretches
the shorter operand and a result is returned. -/
def distance_ecdf_dense_checked (pw : List (List ℚ)) (C : ℕ)
    (thresholds weights : List ℚ) (pc : ℚ) (skip : Bool) :
    Except String (List (List ℚ)) :=
  if pw.length ≠ 0 ∧ ¬(weights.length = C ∨ weights.length = 1 ∨ C = 1) then
    Except.error "operands could not be broadcast together"
  else if pw.length ≠ 0 ∧ skip = true ∧ weights.length < pw.length then
    Except.error "index out of bounds"
  else
    Except.ok (pw.enum.map fun p =>
      let brow := if C = 1 ∧ weights.length ≠ 1 then
        List.replicate weights.length (p.2.getD 0 0) else p.2
      let bw := if weights.length = 1 ∧ C ≠ 1 then
        List.replicate C (weights.getD 0 0) else weights
      thresholds.map fun t =>
        let numer := numer_dense brow bw t
        let numer2 := if skip then numer - weights.getD p.1 0 else numer
        let denom := if skip then weights.sum - weights.getD p.1 0 else weights.sum
        (numer2 + pc) / (denom + pc))

end Ecdf

namespace Ecdf

/-- A mapped list sum as a sum over the index range, with any default. -/
theorem map_sum_eq_range {α : Type} (l : List α) (f : α → ℚ) (d : α) :
    (l.map f).sum = ∑ j in Finset.range l.length, f (l.getD j d) := by
  induction l with
  | nil => simp
  | cons x xs ih =>
    simp only [List.map_cons, List.sum_cons, List.length_cons,
      Finset.sum_range_succ', List.getD_cons_succ, List.getD_cons_zero, ih]
    ring

/-- A list sum as a sum of getD values over the index range. -/
theorem sum_eq_range_getD (w : List ℚ) :
    w.sum = ∑ j in Finset.range w.length, w.getD j 0 := by
  have h := map_sum_eq_range w id 0
  simpa using h

/-- Entry (i, a) of the dense ecdf matrix is the row loop body evaluated at
row i and threshold a. -/
theorem getD_distance_ecdf_dense (pw : List (List ℚ)) (th w : List ℚ)
    (pc : ℚ) (sk : Bool) {i a : ℕ} (hi : i < pw.length) (ha : a < th.length) :
    ((distance_ecdf_dense pw th w pc sk).getD i []).getD a 0 =
      ecdf_val_dense (pw.getD i []) w pc sk i (th.getD a 0) := by
  have hi' : i < (distance_ecdf_dense pw th w pc sk).length := by
    simp [distance_ecdf_dense, List.enum_length, hi]
  have hie : i < pw.enum.length := by simp [List.enum_length, hi]
  have ha' : a < th.length := ha
  rw [List.getD_eq_getElem _ _ hi']
  unfold distance_ecdf_dense
  rw [List.getElem_map (h := by simpa [distance_ecdf_dense] using hi'),
    List.getElem_enum]
  have ha2 : a < (th.map (ecdf_val_dense pw[i] w pc sk i)).length := by
    simpa using ha
  rw [List.getD_eq_getElem _ _ ha2, List.getElem_map,
    List.getD_eq_getElem _ _ hi, List.getD_eq_getElem _ _ ha]

/-- Entry (i, a) of the sparse ecdf matrix is the row loop body evaluated at
row i and threshold a. -/
theorem getD_distance_ecdf_sparse (rows : List (List (ℕ × ℚ))) (th w : List ℚ)
    (pc : ℚ) (sk : Bool) {i a : ℕ} (hi : i < rows.length) (ha : a < th.length) :
    ((distance_ecdf_sparse rows th w pc sk).getD i []).getD a 0 =
      ecdf_val_sparse (rows.getD i []) w pc sk i (th.getD a 0) := by
  have hi' : i < (distance_ecdf_sparse rows th w pc sk).length := by
    simp [distance_ecdf_sparse, List.enum_length, hi]
  rw [List.getD_eq_getElem _ _ hi']
  unfold distance_ecdf_sparse
  rw [List.getElem_map (h := by simpa [distance_ecdf_sparse] using hi'),
    List.getElem_enum]
  have ha2 : a < (th.map (ecdf_val_sparse rows[i] w pc sk i)).length := by
    simpa using ha
  rw [List.getD_eq_getElem _ _ ha2, List.getElem_map,
    List.getD_eq_getElem _ _ hi, List.getD_eq_getElem _ _ ha]

/-- The sparse numerator of the sparse encoding of a dense row tail counts
exactly the weight on the nonzero entries that pass the threshold. -/
theorem numer_sparse_sparsifyFrom (d : List ℚ) :
    ∀ (k : ℕ) (w : List ℚ), w.length = k + d.length → ∀ t : ℚ,
    numer_sparse (sparsifyFrom k d) w t = nz_numer d (w.drop k) t := by
  induction d with
  | nil =>
    intro k w hw t
    simp [numer_sparse, sparsifyFrom, nz_numer]
  | cons x xs ih =>
    intro k w hw t
    simp only [List.length_cons] at hw
    have hk : k < w.length := by omega
    have hdrop : w.drop k = w[k] :: w.drop (k + 1) := List.drop_eq_getElem_cons hk
    have hgd : w.getD k 0 = w[k] := List.getD_eq_getElem w 0 hk
    have hw' : w.length = (k + 1) + xs.length := by omega
    have hzip : nz_numer (x :: xs) (w.drop k) t
        = (if x ≠ 0 ∧ x ≤ t then w[k] else 0) + nz_numer xs (w.drop (k + 1)) t := by
      rw [hdrop]
      simp only [nz_numer, List.zip_cons_cons, List.map_cons, List.sum_cons]
    by_cases hx : x = 0
    · rw [show sparsifyFrom k (x :: xs) = sparsifyFrom (k + 1) xs by
        simp [sparsifyFrom, hx]]
      rw [ih (k + 1) w hw' t, hzip]
      simp [hx]
    · rw [show sparsifyFrom k (x :: xs) = (k, x) :: sparsifyFrom (k + 1) xs by
        simp [sparsifyFrom, hx]]
      have hcons : numer_sparse ((k, x) :: sparsifyFrom (k + 1) xs) w t
          = (if x ≤ t then w.getD k 0 else 0)
            + numer_sparse (sparsifyFrom (k + 1) xs) w t := by
        simp [numer_sparse]
      rw [hcons, ih (k + 1) w hw' t, hzip, hgd]
      simp [hx]

/-- On the full weight vector: the sparse numerator of the sparse encoding
of a dense row equals the nonzero-restricted weighted count. -/
theorem numer_sparse_sparsify (d w : List ℚ) (hw : w.length = d.length) (t : ℚ) :
    numer_sparse (sparsifyFrom 0 d) w t = nz_numer d w t := by
  have h := numer_sparse_sparsifyFrom d 0 w (by simpa using hw) t
  simpa using h

/-- Claim C5: distance_ecdf on the dense matrix [[0,1,2,3],[1,0,1,5]] with
thresholds [0,1,2,3,5], unit weights, pseudo_count 0 and skip_diag off
returns ecdf row 0 = [1/4, 1/2, 3/4, 1, 1] and
row 1 = [1/4, 3/4, 3/4, 3/4, 1]. -/
theorem c5_concrete_scenario :
    distance_ecdf_dense [[0, 1, 2, 3], [1, 0, 1, 5]] [0, 1, 2, 3, 5]
      [1, 1, 1, 1] 0 false =
      [[1/4, 1/2, 3/4, 1, 1], [1/4, 3/4, 3/4, 3/4, 1]] := by
  norm_num [distance_ecdf_dense, ecdf_val_dense, numer_dense, List.enum,
    List.enumFrom]

/-- Pointwise: restricting a thresholded weighted count to the nonzero
entries subtracts exactly the weight on the zero entries, for a
nonnegative threshold. -/
theorem sum_ite_nz_sub (l : List (ℚ × ℚ)) (t : ℚ) (ht : 0 ≤ t) :
    (l.map fun p => if p.1 ≠ 0 ∧ p.1 ≤ t then p.2 else 0).sum
      = (l.map fun p => if p.1 ≤ t then p.2 else 0).sum
        - (l.map fun p => if p.1 = 0 then p.2 else 0).sum := by
  induction l with
  | nil => simp
  | cons p ps ih =>
    simp only [List.map_cons, List.sum_cons]
    rw [ih]
    by_cases h : p.1 = 0
    · have h1 : ¬(p.1 ≠ 0 ∧ p.1 ≤ t) := by simp [h]
      have h2 : p.1 ≤ t := by rw [h]; exact ht
      rw [if_neg h1, if_pos h2, if_pos h]
      ring
    · have h1 : (p.1 ≠ 0 ∧ p.1 ≤ t) ↔ (p.1 ≤ t) := by simp [h]
      rw [if_congr h1 rfl rfl, if_neg h]
      ring

/-- Claim C1 counterexample: the sparse row with one stored pair (0, 5)
over two columns with unit weights has numerator 0 at threshold 0: the
unstored (implicit zero) column 1 contributes nothing, although the claim
predicts it contributes weights[1] = 1, hence an ecdf entry of 1/2 instead
of the computed 0. -/
theorem c1_unstored_counterexample :
    numer_sparse [((0 : ℕ), (5 : ℚ))] [1, 1] 0 = 0 ∧
      distance_ecdf_sparse [[((0 : ℕ), (5 : ℚ))]] [0] [1, 1] 0 false = [[0]] ∧
      (0 : ℚ) ≠ 1 / 2 := by
  refine ⟨?_, ?_, by norm_num⟩ <;>
    norm_num [numer_sparse, distance_ecdf_sparse, ecdf_val_sparse,
      List.enum, List.enumFrom]

/-- Claim C1 amended: in the sparse branch the unstored (implicit zero)
entries of a row are never iterated and contribute nothing to the
numerator; at any nonnegative threshold the sparse numerator of the sparse
encoding of a dense row is the dense numerator minus the total weight
sitting on the zero entries, while the denominator (the full weight sum)
is unaffected by sparsity. -/
theorem c1_unstored_zero_contribution (d w : List ℚ) (t : ℚ) (ht : 0 ≤ t)
    (hw : w.length = d.length) :
    numer_sparse (sparsifyFrom 0 d) w t
      = numer_dense d w t - zero_weight_sum d w := by
  rw [numer_sparse_sparsify d w hw t]
  unfold nz_numer numer_dense zero_weight_sum
  exact sum_ite_nz_sub (d.zip w) t ht

/-- Witness for the amended claim C1 at a concrete input. -/
theorem c1_unstored_witness :
    numer_sparse (sparsifyFrom 0 [5, 0]) [1, 1] 0
      = numer_dense [5, 0] [1, 1] 0 - zero_weight_sum [5, 0] [1, 1] :=
  c1_unstored_zero_contribution [5, 0] [1, 1] 0 (by norm_num) (by norm_num)

/-- Row-level sparse and dense loop bodies agree when every entry of the
dense row is nonzero, so that its sparse encoding stores every column. -/
theorem ecdf_val_sparsify_eq (row w : List ℚ) (pc : ℚ) (sk : Bool) (i : ℕ)
    (t : ℚ) (hnz : ∀ x ∈ row, x ≠ 0) (hw : w.length = row.length) :
    ecdf_val_sparse (sparsifyFrom 0 row) w pc sk i t
      = ecdf_val_dense row w pc sk i t := by
  unfold ecdf_val_sparse ecdf_val_dense
  rw [numer_sparse_sparsify row w hw t]
  have hnum : nz_numer row w t = numer_dense row w t := by
    unfold nz_numer numer_dense
    refine congrArg List.sum (List.map_congr_left fun p hp => ?_)
    obtain ⟨a, b⟩ := p
    have ha := (List.of_mem_zip hp).1
    simp [hnz a ha]
  rw [hnum]

/-- Claim C2 counterexample: the dense one-by-one matrix [[0]] and its
sparse encoding (no stored entries) disagree at threshold 0 with unit
weight: the dense branch returns [[1]], the sparse branch [[0]]. -/
theorem c2_sparse_dense_counterexample :
    distance_ecdf_sparse (sparsify [[0]]) [0] [1] 0 false
      ≠ distance_ecdf_dense [[0]] [0] [1] 0 false := by
  norm_num [sparsify, sparsifyFrom, distance_ecdf_sparse, distance_ecdf_dense,
    ecdf_val_sparse, ecdf_val_dense, numer_sparse, numer_dense,
    List.enum, List.enumFrom]

/-- Claim C2 amended: the dense matrix and its sparse encoding produce
identical ecdf matrices for the same explicit thresholds, weights, pseudo
count and skip_diag, provided every entry of the dense matrix is nonzero
(so that the sparse encoding stores every entry; on a zero entry the two
branches can disagree, since the sparse branch never counts it in a
numerator). -/
theorem c2_sparse_dense_agree (pw : List (List ℚ)) (th w : List ℚ) (pc : ℚ)
    (sk : Bool) (hnz : ∀ row ∈ pw, ∀ x ∈ row, x ≠ 0)
    (hlen : ∀ row ∈ pw, w.length = row.length) :
    distance_ecdf_sparse (sparsify pw) th w pc sk
      = distance_ecdf_dense pw th w pc sk := by
  unfold distance_ecdf_sparse distance_ecdf_dense
  apply List.ext_getElem
  · simp [sparsify, List.enum_length]
  · intro n h1 h2
    have hn : n < pw.length := by
      simpa [List.enum_length] using h2
    simp only [List.getElem_map, List.getElem_enum, sparsify]
    refine List.map_congr_left fun t _ => ?_
    exact ecdf_val_sparsify_eq pw[n] w pc sk n t
      (hnz pw[n] (List.getElem_mem hn)) (hlen pw[n] (List.getElem_mem hn))

/-- Witness for the amended claim C2 at a concrete input. -/
theorem c2_sparse_dense_witness :
    distance_ecdf_sparse (sparsify [[5, 1], [2, 3]]) [1, 4] [1, 2] 1 true
      = distance_ecdf_dense [[5, 1], [2, 3]] [1, 4] [1, 2] 1 true :=
  c2_sparse_dense_agree [[5, 1], [2, 3]] [1, 4] [1, 2] 1 true
    (by norm_num) (by norm_num)

/-- A getD lookup with default 0 in a list of nonnegative values is
nonnegative. -/
theorem getD_nonneg (w : List ℚ) (i : ℕ) (hw : ∀ x ∈ w, 0 ≤ x) :
    0 ≤ w.getD i 0 := by
  by_cases h : i < w.length
  · rw [List.getD_eq_getElem _ _ h]
    exact hw _ (List.getElem_mem h)
  · rw [List.getD_eq_default _ _ (le_of_not_lt h)]

/-- A getD lookup with default 0 in a list of nonnegative values is at most
the sum of the list. -/
theorem getD_le_sum (w : List ℚ) (i : ℕ) (hw : ∀ x ∈ w, 0 ≤ x) :
    w.getD i 0 ≤ w.sum := by
  by_cases h : i < w.length
  · rw [List.getD_eq_getElem _ _ h]
    exact List.single_le_sum hw _ (List.getElem_mem h)
  · rw [List.getD_eq_default _ _ (le_of_not_lt h)]
    exact List.sum_nonneg hw

/-- The dense numerator grows with the threshold when weights are
nonnegative. -/
theorem numer_dense_mono (row w : List ℚ) (hw : ∀ x ∈ w, 0 ≤ x)
    {t1 t2 : ℚ} (h : t1 ≤ t2) :
    numer_dense row w t1 ≤ numer_dense row w t2 := by
  unfold numer_dense
  apply List.sum_le_sum
  intro p hp
  obtain ⟨a, b⟩ := p
  have hb : 0 ≤ b := hw b (List.of_mem_zip hp).2
  by_cases h1 : a ≤ t1
  · rw [if_pos h1, if_pos (h1.trans h)]
  · rw [if_neg h1]
    by_cases h2 : a ≤ t2
    · rw [if_pos h2]; exact hb
    · rw [if_neg h2]

/-- The sparse numerator grows with the threshold when weights are
nonnegative. -/
theorem numer_sparse_mono (s : List (ℕ × ℚ)) (w : List ℚ)
    (hw : ∀ x ∈ w, 0 ≤ x) {t1 t2 : ℚ} (h : t1 ≤ t2) :
    numer_sparse s w t1 ≤ numer_sparse s w t2 := by
  unfold numer_sparse
  apply List.sum_le_sum
  intro p _
  have hb : 0 ≤ w.getD p.1 0 := getD_nonneg w p.1 hw
  by_cases h1 : p.2 ≤ t1
  · rw [if_pos h1, if_pos (h1.trans h)]
  · rw [if_neg h1]
    by_cases h2 : p.2 ≤ t2
    · rw [if_pos h2]; exact hb
    · rw [if_neg h2]

/-- The dense loop body is monotone in the threshold for nonnegative
weights and pseudo count, for either skip_diag setting. -/
theorem ecdf_val_dense_mono (row w : List ℚ) (pc : ℚ) (sk : Bool) (i : ℕ)
    (hw : ∀ x ∈ w, 0 ≤ x) (hpc : 0 ≤ pc) {t1 t2 : ℚ} (h : t1 ≤ t2) :
    ecdf_val_dense row w pc sk i t1 ≤ ecdf_val_dense row w pc sk i t2 := by
  have hn := numer_dense_mono row w hw h
  have hd := getD_le_sum w i hw
  have hs := List.sum_nonneg hw
  by_cases hsk : sk = true
  · simp only [ecdf_val_dense, if_pos hsk]
    exact div_le_div_of_nonneg_right (by linarith) (by linarith)
  · simp only [ecdf_val_dense, if_neg hsk]
    exact div_le_div_of_nonneg_right (by linarith) (by linarith)

/-- The sparse loop body is monotone in the threshold for nonnegative
weights and pseudo count, for either skip_diag setting. -/
theorem ecdf_val_sparse_mono (s : List (ℕ × ℚ)) (w : List ℚ) (pc : ℚ)
    (sk : Bool) (i : ℕ) (hw : ∀ x ∈ w, 0 ≤ x) (hpc : 0 ≤ pc) {t1 t2 : ℚ}
    (h : t1 ≤ t2) :
    ecdf_val_sparse s w pc sk i t1 ≤ ecdf_val_sparse s w pc sk i t2 := by
  have hn := numer_sparse_mono s w hw h
  have hd := getD_le_sum w i hw
  have hs := List.sum_nonneg hw
  by_cases hsk : sk = true
  · simp only [ecdf_val_sparse, if_pos hsk]
    exact div_le_div_of_nonneg_right (by linarith) (by linarith)
  · simp only [ecdf_val_sparse, if_neg hsk]
    exact div_le_div_of_nonneg_right (by linarith) (by linarith)

/-- Claim C3: for nonnegative weights and pseudo count, every row of the
ecdf matrix is non-decreasing along the threshold axis, in both the dense
and the sparse branch, for either skip_diag setting. -/
theorem c3_row_monotone (pw : List (List ℚ)) (rows : List (List (ℕ × ℚ)))
    (th w : List ℚ) (pc : ℚ) (sk : Bool)
    (hw : ∀ x ∈ w, 0 ≤ x) (hpc : 0 ≤ pc) (i a b : ℕ)
    (hid : i < pw.length) (his : i < rows.length)
    (ha : a < th.length) (hb : b < th.length)
    (ht : th.getD a 0 ≤ th.getD b 0) :
    ((distance_ecdf_dense pw th w pc sk).getD i []).getD a 0
        ≤ ((distance_ecdf_dense pw th w pc sk).getD i []).getD b 0
    ∧ ((distance_ecdf_sparse rows th w pc sk).getD i []).getD a 0
        ≤ ((distance_ecdf_sparse rows th w pc sk).getD i []).getD b 0 := by
  constructor
  · rw [getD_distance_ecdf_dense pw th w pc sk hid ha,
      getD_distance_ecdf_dense pw th w pc sk hid hb]
    exact ecdf_val_dense_mono _ w pc sk i hw hpc ht
  · rw [getD_distance_ecdf_sparse rows th w pc sk his ha,
      getD_distance_ecdf_sparse rows th w pc sk his hb]
    exact ecdf_val_sparse_mono _ w pc sk i hw hpc ht

/-- Witness for claim C3 at a concrete input. -/
theorem c3_row_monotone_witness :
    ((distance_ecdf_dense [[0, 1]] [0, 2] [1, 1] 0 false).getD 0 []).getD 0 0
        ≤ ((distance_ecdf_dense [[0, 1]] [0, 2] [1, 1] 0 false).getD 0 []).getD 1 0
    ∧ ((distance_ecdf_sparse [[((0 : ℕ), (1 : ℚ))]] [0, 2] [1, 1] 0 false).getD 0 []).getD 0 0
        ≤ ((distance_ecdf_sparse [[((0 : ℕ), (1 : ℚ))]] [0, 2] [1, 1] 0 false).getD 0 []).getD 1 0 :=
  c3_row_monotone [[0, 1]] [[((0 : ℕ), (1 : ℚ))]] [0, 2] [1, 1] 0 false
    (by norm_num) (by norm_num) 0 0 1 (by norm_num) (by norm_num)
    (by norm_num) (by norm_num)
    (by norm_num [List.getD_cons_zero, List.getD_cons_succ])

/-- Scaling the weights scales the dense numerator. -/
theorem numer_dense_smul (row w : List ℚ) (c t : ℚ) :
    numer_dense row (w.map fun x => c * x) t = c * numer_dense row w t := by
  unfold numer_dense
  rw [List.zip_map_right, List.map_map]
  have hcomp : ((fun p : ℚ × ℚ => if p.1 ≤ t then p.2 else 0)
        ∘ Prod.map id fun x => c * x)
      = fun p : ℚ × ℚ => c * (if p.1 ≤ t then p.2 else 0) := by
    funext p
    by_cases h : p.1 ≤ t <;> simp [Prod.map, h]
  rw [hcomp, List.sum_map_mul_left]

/-- Scaling a list scales its sum. -/
theorem sum_map_smul (w : List ℚ) (c : ℚ) :
    (w.map fun x => c * x).sum = c * w.sum := by
  have h := List.sum_map_mul_left w id c
  simpa using h

/-- Scaling a list scales its getD lookups with default 0. -/
theorem getD_map_smul (w : List ℚ) (c : ℚ) (i : ℕ) :
    (w.map fun x => c * x).getD i 0 = c * w.getD i 0 := by
  by_cases h : i < w.length
  · rw [List.getD_eq_getElem _ _ (by simpa using h), List.getElem_map,
      List.getD_eq_getElem _ _ h]
  · rw [List.getD_eq_default _ _ (by simpa using le_of_not_lt h),
      List.getD_eq_default _ _ (le_of_not_lt h), mul_zero]

/-- Scaling the weights scales the sparse numerator. -/
theorem numer_sparse_smul (s : List (ℕ × ℚ)) (w : List ℚ) (c t : ℚ) :
    numer_sparse s (w.map fun x => c * x) t = c * numer_sparse s w t := by
  unfold numer_sparse
  rw [← List.sum_map_mul_left]
  refine congrArg List.sum (List.map_congr_left fun p _ => ?_)
  by_cases h : p.2 ≤ t
  · rw [if_pos h, if_pos h]
    exact getD_map_smul w c p.1
  · rw [if_neg h, if_neg h, mul_zero]

/-- With zero pseudo count, the dense loop body is invariant under scaling
every weight by a nonzero constant. -/
theorem ecdf_val_dense_smul (row w : List ℚ) (sk : Bool) (i : ℕ) (t c : ℚ)
    (hc : c ≠ 0) :
    ecdf_val_dense row (w.map fun x => c * x) 0 sk i t
      = ecdf_val_dense row w 0 sk i t := by
  by_cases hsk : sk = true
  · simp only [ecdf_val_dense, if_pos hsk, numer_dense_smul, sum_map_smul,
      getD_map_smul, add_zero]
    rw [← mul_sub, ← mul_sub, mul_div_mul_left _ _ hc]
  · simp only [ecdf_val_dense, if_neg hsk, numer_dense_smul, sum_map_smul,
      add_zero]
    rw [mul_div_mul_left _ _ hc]

/-- With zero pseudo count, the sparse loop body is invariant under scaling
every weight by a nonzero constant. -/
theorem ecdf_val_sparse_smul (s : List (ℕ × ℚ)) (w : List ℚ) (sk : Bool)
    (i : ℕ) (t c : ℚ) (hc : c ≠ 0) :
    ecdf_val_sparse s (w.map fun x => c * x) 0 sk i t
      = ecdf_val_sparse s w 0 sk i t := by
  by_cases hsk : sk = true
  · simp only [ecdf_val_sparse, if_pos hsk, numer_sparse_smul, sum_map_smul,
      getD_map_smul, add_zero]
    rw [← mul_sub, ← mul_sub, mul_div_mul_left _ _ hc]
  · simp only [ecdf_val_sparse, if_neg hsk, numer_sparse_smul, sum_map_smul,
      add_zero]
    rw [mul_div_mul_left _ _ hc]

/-- Claim C6 counterexample: with pseudo_count = 1, doubling the single
weight changes the ecdf matrix, because the pseudo count is not scaled
along with numerator and denominator. -/
theorem c6_weight_scale_counterexample :
    distance_ecdf_dense [[1]] [0] ([1].map fun x => 2 * x) 1 false
      ≠ distance_ecdf_dense [[1]] [0] [1] 1 false := by
  norm_num [distance_ecdf_dense, ecdf_val_dense, numer_dense,
    List.enum, List.enumFrom]

/-- Claim C6 amended: with pseudo_count = 0, scaling every weight by a
positive constant leaves the ecdf matrix unchanged, in both the dense and
the sparse branch; with a nonzero pseudo count the invariance fails. -/
theorem c6_weight_scale_invariance (pw : List (List ℚ))
    (rows : List (List (ℕ × ℚ))) (th w : List ℚ) (sk : Bool) (c : ℚ)
    (hc : 0 < c) :
    distance_ecdf_dense pw th (w.map fun x => c * x) 0 sk
        = distance_ecdf_dense pw th w 0 sk
    ∧ distance_ecdf_sparse rows th (w.map fun x => c * x) 0 sk
        = distance_ecdf_sparse rows th w 0 sk := by
  constructor
  · unfold distance_ecdf_dense
    refine List.map_congr_left fun p _ => ?_
    refine List.map_congr_left fun t _ => ?_
    exact ecdf_val_dense_smul p.2 w sk p.1 t c (ne_of_gt hc)
  · unfold distance_ecdf_sparse
    refine List.map_congr_left fun p _ => ?_
    refine List.map_congr_left fun t _ => ?_
    exact ecdf_val_sparse_smul p.2 w sk p.1 t c (ne_of_gt hc)

/-- Witness for the amended claim C6 at a concrete input. -/
theorem c6_weight_scale_witness :
    distance_ecdf_dense [[0, 3]] [1] ([1, 2].map fun x => 5 * x) 0 true
        = distance_ecdf_dense [[0, 3]] [1] [1, 2] 0 true
    ∧ distance_ecdf_sparse [[((1 : ℕ), (3 : ℚ))]] [1]
          ([1, 2].map fun x => 5 * x) 0 true
        = distance_ecdf_sparse [[((1 : ℕ), (3 : ℚ))]] [1] [1, 2] 0 true :=
  c6_weight_scale_invariance [[0, 3]] [[((1 : ℕ), (3 : ℚ))]] [1] [1, 2]
    true 5 (by norm_num)

/-- The dense numerator as a sum over the column index range. -/
theorem numer_dense_eq_range (row w : List ℚ) (n : ℕ) (hr : row.length = n)
    (hw : w.length = n) (t : ℚ) :
    numer_dense row w t
      = ∑ j in Finset.range n, if row.getD j 0 ≤ t then w.getD j 0 else 0 := by
  unfold numer_dense
  rw [map_sum_eq_range (d := (0, 0))]
  have hlen : (row.zip w).length = n := by
    simp [List.length_zip, hr, hw]
  rw [hlen]
  apply Finset.sum_congr rfl
  intro j hj
  have hj' : j < n := Finset.mem_range.mp hj
  have h1 : j < (row.zip w).length := by rw [hlen]; exact hj'
  rw [List.getD_eq_getElem _ _ h1, List.getElem_zip,
    List.getD_eq_getElem _ _ (show j < row.length by rw [hr]; exact hj'),
    List.getD_eq_getElem _ _ (show j < w.length by rw [hw]; exact hj')]

/-- Claim C7: with skip_diag on, target set equal to reference set (square
shape) and a zero diagonal entry for the target row, each ecdf entry is the
weighted fraction with the own zero self-distance excluded from numerator
and denominator, pseudo count included in both. -/
theorem c7_self_exclusion (pw : List (List ℚ)) (th w : List ℚ) (pc : ℚ)
    (n i a : ℕ) (hpw : pw.length = n) (hw : w.length = n)
    (hrow : ∀ row ∈ pw, row.length = n) (hi : i < n) (ha : a < th.length)
    (ht : 0 ≤ th.getD a 0) (hdiag : (pw.getD i []).getD i 0 = 0) :
    ((distance_ecdf_dense pw th w pc true).getD i []).getD a 0
      = (excl_numer (pw.getD i []) w i (th.getD a 0) n + pc)
        / (excl_denom w i n + pc) := by
  have hi' : i < pw.length := by rw [hpw]; exact hi
  rw [getD_distance_ecdf_dense pw th w pc true hi' ha]
  have hrmem : pw.getD i [] ∈ pw := by
    rw [List.getD_eq_getElem _ _ hi']
    exact List.getElem_mem hi'
  have hrl : (pw.getD i []).length = n := hrow _ hrmem
  have hmem : i ∈ Finset.range n := Finset.mem_range.mpr hi
  have hfi : (if (pw.getD i []).getD i 0 ≤ th.getD a 0
      then w.getD i 0 else 0) = w.getD i 0 := by
    rw [hdiag]; exact if_pos ht
  have hnum : (∑ j in Finset.range n,
        if (pw.getD i []).getD j 0 ≤ th.getD a 0 then w.getD j 0 else 0)
      = excl_numer (pw.getD i []) w i (th.getD a 0) n + w.getD i 0 := by
    rw [Finset.sum_eq_sum_diff_singleton_add hmem, hfi]
    congr 1
    unfold excl_numer
    rw [Finset.sum_eq_sum_diff_singleton_add hmem]
    have hgi : (if i ≠ i ∧ (pw.getD i []).getD i 0 ≤ th.getD a 0
        then w.getD i 0 else 0) = 0 := by simp
    rw [hgi, add_zero]
    apply Finset.sum_congr rfl
    intro j hj
    have hji : j ≠ i := by
      intro heq
      exact (Finset.mem_sdiff.mp hj).2 (Finset.mem_singleton.mpr heq)
    simp [hji]
  have hden : w.sum = excl_denom w i n + w.getD i 0 := by
    have h0 : w.sum = ∑ j in Finset.range n, w.getD j 0 := by
      rw [sum_eq_range_getD, hw]
    rw [h0, Finset.sum_eq_sum_diff_singleton_add hmem]
    congr 1
    unfold excl_denom
    rw [Finset.sum_eq_sum_diff_singleton_add hmem]
    have hgi : (if i ≠ i then w.getD i 0 else 0) = 0 := by simp
    rw [hgi, add_zero]
    apply Finset.sum_congr rfl
    intro j hj
    have hji : j ≠ i := by
      intro heq
      exact (Finset.mem_sdiff.mp hj).2 (Finset.mem_singleton.mpr heq)
    simp [hji]
  simp only [ecdf_val_dense, eq_self_iff_true, if_true]
  rw [numer_dense_eq_range (pw.getD i []) w n hrl hw, hnum, hden]
  congr 1 <;> ring

/-- Witness for claim C7 at a concrete input. -/
theorem c7_self_exclusion_witness :
    ((distance_ecdf_dense [[0, 2], [2, 0]] [1] [1, 1] 0 true).getD 0 []).getD 0 0
      = (excl_numer ([[(0 : ℚ), 2], [2, 0]].getD 0 []) [1, 1] 0
            ([(1 : ℚ)].getD 0 0) 2 + 0)
        / (excl_denom [1, 1] 0 2 + 0) :=
  c7_self_exclusion [[0, 2], [2, 0]] [1] [1, 1] 0 2 0 0 (by norm_num)
    (by norm_num)
    (by
      intro row hr
      simp only [List.mem_cons, List.not_mem_nil, or_false] at hr
      rcases hr with rfl | rfl <;> rfl)
    (by norm_num) (by norm_num)
    (by norm_num [List.getD_cons_zero]) rfl

/-- A fraction of a nonnegative numerator over a denominator at least as
large lies in the unit interval (with the total division convention
sending a zero denominator to 0). -/
theorem frac_bounds {a b : ℚ} (h0 : 0 ≤ a) (hab : a ≤ b) :
    0 ≤ a / b ∧ a / b ≤ 1 := by
  rcases eq_or_lt_of_le (h0.trans hab) with hb | hb
  · rw [← hb, div_zero]
    norm_num
  · exact ⟨div_nonneg h0 (le_of_lt hb), (div_le_one hb).mpr hab⟩

/-- The dense numerator is nonnegative for nonnegative weights. -/
theorem numer_dense_nonneg (row w : List ℚ) (t : ℚ)
    (hw : ∀ x ∈ w, 0 ≤ x) : 0 ≤ numer_dense row w t := by
  apply List.sum_nonneg
  intro x hx
  obtain ⟨p, hp, rfl⟩ := List.mem_map.mp hx
  obtain ⟨a, b⟩ := p
  have hb : 0 ≤ b := hw b (List.of_mem_zip hp).2
  by_cases h : a ≤ t
  · rw [if_pos h]; exact hb
  · rw [if_neg h]

/-- The dense numerator is at most the total weight when the row covers
every weight. -/
theorem numer_dense_le_sum (row w : List ℚ) (t : ℚ)
    (hw : ∀ x ∈ w, 0 ≤ x) (hlen : w.length ≤ row.length) :
    numer_dense row w t ≤ w.sum := by
  have h1 : numer_dense row w t ≤ ((row.zip w).map Prod.snd).sum := by
    apply List.sum_le_sum
    intro p hp
    obtain ⟨a, b⟩ := p
    have hb : 0 ≤ b := hw b (List.of_mem_zip hp).2
    by_cases h : a ≤ t
    · rw [if_pos h]
    · rw [if_neg h]; exact hb
  rw [List.map_snd_zip row w hlen] at h1
  exact h1

/-- When column i exists, has a nonnegative lookup table, and its distance
passes the threshold, its weight is a lower bound on the dense numerator. -/
theorem getD_le_numer_dense (row w : List ℚ) (t : ℚ) (i : ℕ)
    (hw : ∀ x ∈ w, 0 ≤ x) (hir : i < row.length) (hiw : i < w.length)
    (hd : row.getD i 0 ≤ t) : w.getD i 0 ≤ numer_dense row w t := by
  have hiz : i < (row.zip w).length := by
    simp [List.length_zip]; omega
  have hin : i < ((row.zip w).map fun p => if p.1 ≤ t then p.2 else 0).length := by
    simpa using hiz
  have hval : ((row.zip w).map fun p => if p.1 ≤ t then p.2 else 0)[i]
      = w.getD i 0 := by
    rw [List.getElem_map, List.getElem_zip]
    rw [List.getD_eq_getElem _ _ hir] at hd
    rw [List.getD_eq_getElem _ _ hiw]
    exact if_pos hd
  have hmemv := List.getElem_mem hin
  rw [hval] at hmemv
  apply List.single_le_sum _ _ hmemv
  intro x hx
  obtain ⟨p, hp, rfl⟩ := List.mem_map.mp hx
  obtain ⟨a, b⟩ := p
  have hb : 0 ≤ b := hw b (List.of_mem_zip hp).2
  by_cases h : a ≤ t
  · rw [if_pos h]; exact hb
  · rw [if_neg h]

/-- The sparse numerator is nonnegative for nonnegative weights. -/
theorem numer_sparse_nonneg (s : List (ℕ × ℚ)) (w : List ℚ) (t : ℚ)
    (hw : ∀ x ∈ w, 0 ≤ x) : 0 ≤ numer_sparse s w t := by
  apply List.sum_nonneg
  intro x hx
  obtain ⟨p, hp, rfl⟩ := List.mem_map.mp hx
  by_cases h : p.2 ≤ t
  · rw [if_pos h]; exact getD_nonneg w p.1 hw
  · rw [if_neg h]

/-- With pairwise distinct stored column indices, all within range of the
weight vector, the sparse numerator is at most the total weight. -/
theorem numer_sparse_le_sum (s : List (ℕ × ℚ)) (w : List ℚ) (t : ℚ)
    (hw : ∀ x ∈ w, 0 ≤ x) (hnd : (s.map Prod.fst).Nodup)
    (hlt : ∀ p ∈ s, p.1 < w.length) : numer_sparse s w t ≤ w.sum := by
  have h1 : numer_sparse s w t ≤ (s.map fun p => w.getD p.1 0).sum := by
    apply List.sum_le_sum
    intro p _
    by_cases h : p.2 ≤ t
    · rw [if_pos h]
    · rw [if_neg h]; exact getD_nonneg w p.1 hw
  have h2 : (s.map fun p => w.getD p.1 0).sum
      = ((s.map Prod.fst).map fun j => w.getD j 0).sum := by
    rw [List.map_map]
    rfl
  have h3 : ((s.map Prod.fst).map fun j => w.getD j 0).sum ≤ w.sum := by
    rw [← List.sum_toFinset _ hnd]
    have hsub : (s.map Prod.fst).toFinset ⊆ Finset.range w.length := by
      intro j hj
      obtain ⟨p, hp, rfl⟩ := List.mem_map.mp (List.mem_toFinset.mp hj)
      exact Finset.mem_range.mpr (hlt p hp)
    calc (s.map Prod.fst).toFinset.sum (fun j => w.getD j 0)
        ≤ ∑ j in Finset.range w.length, w.getD j 0 :=
          Finset.sum_le_sum_of_subset_of_nonneg hsub
            fun j _ _ => getD_nonneg w j hw
      _ = w.sum := (sum_eq_range_getD w).symm
  rw [h2] at h1
  exact h1.trans h3

/-- Claim C4 counterexample: with uniform nonnegative weights [1, 1],
pseudo_count 0 and skip_diag on, the dense matrix [[5, 9], [9, 5]] at
threshold 0 yields ecdf entries equal to -1, outside the unit interval:
no diagonal entry passes the threshold, yet weights[i] is subtracted from
the numerator. -/
theorem c4_unit_interval_counterexample :
    distance_ecdf_dense [[5, 9], [9, 5]] [0] [1, 1] 0 true = [[-1], [-1]]
      ∧ ¬((0 : ℚ) ≤ -1) := by
  constructor
  · norm_num [distance_ecdf_dense, ecdf_val_dense, numer_dense,
      List.enum, List.enumFrom]
  · norm_num

/-- Claim C4 amended: with pseudo_count 0 and uniform positive weight c on
C columns, every ecdf entry lies in the unit interval provided that, when
skip_diag is on (dense case), the matrix is at most C rows tall with at
least 2 columns and the diagonal entry of each row passes every threshold,
and, in the sparse case, skip_diag is off and the stored column indices of
each row are pairwise distinct and within range. Without the diagonal
proviso an entry can be negative. -/
theorem c4_unit_interval (pw : List (List ℚ)) (rows : List (List (ℕ × ℚ)))
    (th : List ℚ) (C : ℕ) (c : ℚ) (sk : Bool) (i a : ℕ)
    (hc : 0 < c) (_hC : 0 < C)
    (hrow : ∀ row ∈ pw, row.length = C)
    (hskip : sk = true → 2 ≤ C ∧ pw.length ≤ C ∧
      ∀ j, j < pw.length → ∀ b, b < th.length →
        (pw.getD j []).getD j 0 ≤ th.getD b 0)
    (hid : i < pw.length) (ha : a < th.length)
    (hvalid : ∀ s ∈ rows, (s.map Prod.fst).Nodup ∧ ∀ p ∈ s, p.1 < C)
    (his : i < rows.length) :
    (0 ≤ ((distance_ecdf_dense pw th (List.replicate C c) 0 sk).getD i []).getD a 0
      ∧ ((distance_ecdf_dense pw th (List.replicate C c) 0 sk).getD i []).getD a 0 ≤ 1)
    ∧ (sk = false →
      0 ≤ ((distance_ecdf_sparse rows th (List.replicate C c) 0 sk).getD i []).getD a 0
      ∧ ((distance_ecdf_sparse rows th (List.replicate C c) 0 sk).getD i []).getD a 0 ≤ 1) := by
  have hwnn : ∀ x ∈ List.replicate C c, 0 ≤ x := by
    intro x hx
    rw [List.eq_of_mem_replicate hx]
    exact le_of_lt hc
  have hwlen : (List.replicate C c).length = C := List.length_replicate C c
  constructor
  · rw [getD_distance_ecdf_dense pw th _ 0 sk hid ha]
    have hrmem : pw.getD i [] ∈ pw := by
      rw [List.getD_eq_getElem _ _ hid]
      exact List.getElem_mem hid
    have hrl : (pw.getD i []).length = C := hrow _ hrmem
    have hnn := numer_dense_nonneg (pw.getD i []) (List.replicate C c)
      (th.getD a 0) hwnn
    have hle := numer_dense_le_sum (pw.getD i []) (List.replicate C c)
      (th.getD a 0) hwnn (by rw [hwlen, hrl])
    by_cases hsk : sk = true
    · obtain ⟨hC2, hRC, hdg⟩ := hskip hsk
      have hiC : i < C := lt_of_lt_of_le hid hRC
      have hgd : (List.replicate C c).getD i 0 = c := by
        rw [List.getD_eq_getElem _ _ (by rw [hwlen]; exact hiC),
          List.getElem_replicate]
      have hlow := getD_le_numer_dense (pw.getD i []) (List.replicate C c)
        (th.getD a 0) i hwnn (by rw [hrl]; exact hiC)
        (by rw [hwlen]; exact hiC) (hdg i hid a ha)
      simp only [ecdf_val_dense, if_pos hsk, add_zero]
      exact frac_bounds (by rw [hgd] at hlow ⊢; linarith) (by linarith)
    · simp only [ecdf_val_dense, if_neg hsk, add_zero]
      exact frac_bounds hnn hle
  · intro hskf
    rw [getD_distance_ecdf_sparse rows th _ 0 sk his ha]
    have hsmem : rows.getD i [] ∈ rows := by
      rw [List.getD_eq_getElem _ _ his]
      exact List.getElem_mem his
    obtain ⟨hnd, hlt⟩ := hvalid _ hsmem
    have hnn := numer_sparse_nonneg (rows.getD i []) (List.replicate C c)
      (th.getD a 0) hwnn
    have hle := numer_sparse_le_sum (rows.getD i []) (List.replicate C c)
      (th.getD a 0) hwnn hnd (by rw [hwlen]; exact hlt)
    have hskne : ¬(sk = true) := by rw [hskf]; exact Bool.false_ne_true
    simp only [ecdf_val_sparse, if_neg hskne, add_zero]
    exact frac_bounds hnn hle

/-- Witness for the amended claim C4 at a concrete input. -/
theorem c4_unit_interval_witness :
    (0 ≤ ((distance_ecdf_dense [[0, 7]] [3] (List.replicate 2 1) 0 false).getD 0 []).getD 0 0
      ∧ ((distance_ecdf_dense [[0, 7]] [3] (List.replicate 2 1) 0 false).getD 0 []).getD 0 0 ≤ 1)
    ∧ (false = false →
      0 ≤ ((distance_ecdf_sparse [[((1 : ℕ), (7 : ℚ))]] [3] (List.replicate 2 1) 0 false).getD 0 []).getD 0 0
      ∧ ((distance_ecdf_sparse [[((1 : ℕ), (7 : ℚ))]] [3] (List.replicate 2 1) 0 false).getD 0 []).getD 0 0 ≤ 1) :=
  c4_unit_interval [[0, 7]] [[((1 : ℕ), (7 : ℚ))]] [3] 2 1 false 0 0
    (by norm_num) (by norm_num)
    (by
      intro row hr
      simp only [List.mem_cons, List.not_mem_nil, or_false] at hr
      subst hr
      rfl)
    (by intro h; exact absurd h (by norm_num))
    (by norm_num) (by norm_num)
    (by
      intro s hs
      simp only [List.mem_cons, List.not_mem_nil, or_false] at hs
      subst hs
      constructor
      · simp
      · intro p hp
        simp only [List.mem_cons, List.not_mem_nil, or_false] at hp
        subst hp
        norm_num)
    (by norm_num)

/-- Claim C8: the enforce_mn branch of make_ecdf_step writes the clamped
values back through the aliased input arrays. At thresholds [-1, 2] with
mn = (0, 0) the callers thresholds array afterwards holds [0, 2], not the
[-1, 2] it held before the call, so the function is not free of side
effects on its inputs. -/
theorem c8_enforce_mn_mutates :
    step_inputs_after [-1, 2] [1/5, 1] true (0, 0) = ([0, 2], [1/5, 1])
      ∧ ([(0 : ℚ), 2] ≠ [-1, 2]) := by
  constructor
  · norm_num [step_inputs_after, clamp_low]
  · norm_num

/-- Doubling each element doubles the length. -/
theorem double_each_length (l : List ℚ) :
    (double_each l).length = 2 * l.length := by
  induction l with
  | nil => rfl
  | cons x xs ih =>
    simp only [double_each, List.length_cons, ih]
    omega

/-- The jitter stage preserves length. -/
theorem jitter_fix_length (t : List ℚ) (xj r : ℚ) :
    (jitter_fix t xj r).length = t.length := by
  simp [jitter_fix]

/-- Clamping preserves length. -/
theorem clamp_low_length (l : List ℚ) (m : ℚ) :
    (clamp_low l m).length = l.length := by
  simp [clamp_low]

/-- The three prepend branches succeed on nonempty inputs and add one
element to each sequence per enabled flag. -/
theorem step_prepend_some (t y : List ℚ) (ax ay amn : Bool) (mn : ℚ × ℚ)
    (htne : t ≠ []) (hyne : y ≠ []) :
    ∃ t2 y2, step_prepend t y ax ay amn mn = some (t2, y2)
      ∧ t2.length = t.length + cond ax 1 0 + cond ay 1 0 + cond amn 1 0
      ∧ y2.length = y.length + cond ax 1 0 + cond ay 1 0 + cond amn 1 0
      ∧ t2 ≠ [] := by
  obtain ⟨t0, ts, rfl⟩ := List.exists_cons_of_ne_nil htne
  obtain ⟨y0, ys, rfl⟩ := List.exists_cons_of_ne_nil hyne
  cases ax <;> cases ay <;> cases amn <;>
    exact ⟨_, _, rfl, by simp, by simp, by simp⟩

/-- Claim C9: on any pair of equal-length nonempty inputs and any flag and
jitter configuration, make_ecdf_step returns sequences of length 2n - 1
where n is the common length after the prepending flags are applied; and
the concrete scenario thresholds [1, 2, 3], ecdf [1/5, 3/5, 1] with no
flags and no jitter yields x = [1, 2, 2, 3, 3] and
y = [1/5, 1/5, 3/5, 3/5, 1]. -/
theorem c9_step_shape :
    (∀ (th ec : List ℚ) (ax ay amn emn : Bool) (mn : ℚ × ℚ) (xj r : ℚ),
      th ≠ [] → ec.length = th.length →
      ∃ x y, make_ecdf_step th ec ax ay amn emn mn xj r = some (x, y)
        ∧ x.length = 2 * (th.length + cond ax 1 0 + cond ay 1 0 + cond amn 1 0) - 1
        ∧ y.length = 2 * (th.length + cond ax 1 0 + cond ay 1 0 + cond amn 1 0) - 1)
    ∧ make_ecdf_step [1, 2, 3] [1/5, 3/5, 1] false false false false (0, 0) 0 0
        = some ([1, 2, 2, 3, 3], [1/5, 1/5, 3/5, 3/5, 1]) := by
  constructor
  · intro th ec ax ay amn emn mn xj r hne hlen
    have hpos : 0 < th.length := List.length_pos.mpr hne
    have hlt1 : (if emn then clamp_low th mn.1 else th).length = th.length := by
      cases emn <;> simp [clamp_low]
    have hly1 : (if emn then clamp_low ec mn.2 else ec).length = th.length := by
      cases emn <;> simp [clamp_low, hlen]
    have htne1 : (if emn then clamp_low th mn.1 else th) ≠ [] :=
      List.length_pos.mp (by rw [hlt1]; exact hpos)
    have hyne1 : (if emn then clamp_low ec mn.2 else ec) ≠ [] :=
      List.length_pos.mp (by rw [hly1]; exact hpos)
    obtain ⟨t2, y2, hp, hl2, hl3, htne2⟩ :=
      step_prepend_some _ _ ax ay amn mn htne1 hyne1
    obtain ⟨t20, t2s, rfl⟩ := List.exists_cons_of_ne_nil htne2
    refine ⟨jitter_fix (t20 :: double_each t2s) xj r,
      (double_each y2).dropLast, ?_, ?_, ?_⟩
    · simp only [make_ecdf_step, hp, Option.bind_eq_bind, Option.some_bind,
        step_double]
    · rw [jitter_fix_length]
      simp only [List.length_cons, double_each_length]
      simp only [List.length_cons] at hl2
      rw [hlt1] at hl2
      omega
    · rw [List.length_dropLast, double_each_length]
      rw [hly1] at hl3
      omega
  · norm_num [make_ecdf_step, step_prepend, step_double, double_each,
      jitter_fix, clamp_low]

/-- Witness for the general part of claim C9 at a concrete input with all
flags on and a nonzero jitter. -/
theorem c9_step_shape_witness :
    ∃ x y, make_ecdf_step [1, 2] [3, 4] true true true true (0, 0) 1 (1/4)
        = some (x, y)
      ∧ x.length = 2 * (([(1 : ℚ), 2]).length + cond true 1 0 + cond true 1 0
          + cond true 1 0) - 1
      ∧ y.length = 2 * (([(1 : ℚ), 2]).length + cond true 1 0 + cond true 1 0
          + cond true 1 0) - 1 :=
  c9_step_shape.1 [1, 2] [3, 4] true true true true (0, 0) 1 (1/4)
    (by simp) (by rfl)

/-- Claim C10 counterexample: a weight vector of length 1 against C = 3
columns does not raise a dimension error: numpy broadcasting stretches the
single weight across the columns and the call returns a result, whose
single entry here is 2, outside [0, 1], because the denominator is still
the sum of the single supplied weight. -/
theorem c10_weights_counterexample :
    distance_ecdf_dense_checked [[0, 1, 2]] 3 [1] [1] 0 false
      = Except.ok [[2]] := by
  norm_num [distance_ecdf_dense_checked, numer_dense, List.enum,
    List.enumFrom, List.replicate]

/-- Claim C10 amended: the dense branch fails with a broadcast dimension
error exactly when there is at least one row and the weight length is
broadcast-incompatible with the column count: distinct from C, from 1, and
C itself distinct from 1. When the weight length is 1, or C is 1, numpy
broadcasting silently stretches the shorter operand and a (generally
wrong-denominator) result is returned; with no rows the loop body never
runs and no error is raised either. -/
theorem c10_weights_mismatch (pw : List (List ℚ)) (C : ℕ) (th w : List ℚ)
    (pc : ℚ) (sk : Bool) (hne : pw ≠ []) (hWC : w.length ≠ C)
    (hW1 : w.length ≠ 1) (hC1 : C ≠ 1) :
    distance_ecdf_dense_checked pw C th w pc sk
      = Except.error "operands could not be broadcast together" := by
  unfold distance_ecdf_dense_checked
  rw [if_pos]
  constructor
  · intro h
    exact hne (List.length_eq_zero.mp h)
  · push_neg
    exact ⟨hWC, hW1, hC1⟩

/-- Witness for the amended claim C10 at a concrete input. -/
theorem c10_weights_mismatch_witness :
    distance_ecdf_dense_checked [[0, 1, 2]] 3 [1] [1, 2] 0 false
      = Except.error "operands could not be broadcast together" :=
  c10_weights_mismatch [[0, 1, 2]] 3 [1] [1, 2] 0 false (by simp)
    (by norm_num) (by norm_num) (by norm_num)

end Ecdf
